import Mathlib

/-!
Shallow embedding of `src/fibonacci_heap.py` (class `FibonacciHeap`).

Nodes live in an arena (`List Node`); a node's identity is its index in the
arena, assigned at `insert` time (Python object identity becomes the index).
Nodes removed from the heap stay in the arena but become unreferenced, just
as unreferenced Python objects do.  Python exceptions (`IndexError`,
`ValueError` from `math.log`, `AttributeError` from a `None` dereference)
and nontermination of `while` loops on corrupted rings are modelled with
`Except PyErr`; fuel bounds are chosen large enough that running out of
fuel can only happen when the corresponding Python loop runs forever.
-/

namespace FibHeap

/-- Keys.  The Python code compares keys with `<` / `>` only; the repository
uses numeric keys, and `delete` uses `float(-inf)`, so a key is either
negative infinity or an integer. -/
inductive Key where
  | ninf : Key
  | kint : Int → Key
deriving DecidableEq, Repr

/-- Python's `a < b` on keys (`float(-inf)` is below every integer and not
below itself). -/
def Key.blt : Key → Key → Bool
  | .ninf, .ninf => false
  | .ninf, .kint _ => true
  | .kint _, .ninf => false
  | .kint a, .kint b => decide (a < b)

/-- Python `FibonacciHeap.Node.__init__`: `key`, `parent`, `child`, `left`, `right`,
`degree`, `mark`.  References to other nodes are arena indices.  `degree` is
an `Int` because Python's `degree -= 1` can drive it negative. -/
structure Node where
  key : Key
  parent : Option Nat
  child : Option Nat
  left : Nat
  right : Nat
  degree : Int
  mark : Bool
deriving DecidableEq, Repr

instance : Inhabited Node :=
  ⟨{ key := .kint 0, parent := none, child := none, left := 0, right := 0,
     degree := 0, mark := false }⟩

/-- Python `FibonacciHeap.__init__`: `min` is `None` or a node reference,
`num_nodes` a Python `int`. -/
structure Heap where
  nodes : List Node
  min : Option Nat
  num_nodes : Int
deriving DecidableEq, Repr

def emptyHeap : Heap := { nodes := [], min := none, num_nodes := 0 }

/-- Read the node object behind index `i` (total for convenience; every
index dereferenced by the original code on the states we study is in
range). -/
def getN (h : Heap) (i : Nat) : Node := (h.nodes.get? i).getD default

/-- Mutate the node object behind index `i` in place. -/
def modifyN (h : Heap) (i : Nat) (f : Node → Node) : Heap :=
  { h with nodes := h.nodes.set i (f (getN h i)) }

/-- Python `Node.add` (splice `n` immediately to the left of `s`):
`node.left = self.left; node.right = self; self.left.right = node;
self.left = node`, with the same sequential field-write order. -/
def add (h : Heap) (s n : Nat) : Heap :=
  let sl := (getN h s).left
  let h := modifyN h n (fun x => { x with left := sl, right := s })
  let h := modifyN h sl (fun x => { x with right := n })
  modifyN h s (fun x => { x with left := n })

/-- Python `Node.remove`: `self.left.right = self.right; self.right.left =
self.left` (the node's own pointers are untouched). -/
def remove (h : Heap) (n : Nat) : Heap :=
  let nl := (getN h n).left
  let nr := (getN h n).right
  let h := modifyN h nl (fun x => { x with right := nr })
  modifyN h nr (fun x => { x with left := nl })

/-- The `while current != self` loop of `Node.siblings`; `none` means the
Python loop never terminates (the walk left from `current` cycles without
reaching `s`, which pigeonhole makes certain once `fuel > ` arena size
steps have not reached `s`). -/
def sibsLoop (h : Heap) (s : Nat) : Nat → Nat → List Nat → Option (List Nat)
  | 0, _, _ => none
  | fuel + 1, current, sibs =>
    if current = s then some sibs
    else sibsLoop h s fuel (getN h current).left (sibs ++ [(getN h current).left])

/-- Python `Node.siblings`. -/
def siblings (h : Heap) (s : Nat) : Option (List Nat) :=
  if (getN h s).left = s then some [s]
  else
    let l := (getN h s).left
    sibsLoop h s (h.nodes.length + 1) (getN h l).left (l :: [(getN h l).left])

/-- Python exceptions (plus nontermination of a loop / unbounded recursion). -/
inductive PyErr where
  | indexError : PyErr
  | valueError : PyErr
  | attrError : PyErr
  | nonTerm : PyErr
deriving DecidableEq, Repr

/-- Python list read `l[i]` with negative-index wraparound and `IndexError`
out of range. -/
def pyGet (l : List (Option Nat)) (i : Int) : Except PyErr (Option Nat) :=
  if 0 ≤ i ∧ i < (l.length : Int) then
    .ok ((l.get? i.toNat).getD none)
  else if -(l.length : Int) ≤ i ∧ i < 0 then
    .ok ((l.get? (i + l.length).toNat).getD none)
  else
    .error .indexError

/-- Python list write `l[i] = v`, same index discipline as `pyGet`. -/
def pySet (l : List (Option Nat)) (i : Int) (v : Option Nat) :
    Except PyErr (List (Option Nat)) :=
  if 0 ≤ i ∧ i < (l.length : Int) then
    .ok (l.set i.toNat v)
  else if -(l.length : Int) ≤ i ∧ i < 0 then
    .ok (l.set (i + l.length).toNat v)
  else
    .error .indexError

/-- Strictly increasing thresholds `⌈exp (k/2)⌉` for `k = 1, 2, …`:
`tableSize n` below counts how many of them are `≤ n`, which is exactly
`⌊2·ln n⌋` for `1 ≤ n ≤ 1096` (the next threshold would be
`⌈exp 7⌉ = 1097`); every state reached in this file has `num_nodes ≤ 9`. -/
def lnThresholds : List Nat := [2, 3, 5, 8, 13, 21, 34, 55, 91, 149, 245, 404, 666]

/-- The expression `int(log(self.num_nodes) * 2)` from `__consolidate` (line 128):
`math.log` raises `ValueError` on `n ≤ 0`; for `n ≥ 1` the result is
`⌊2·ln n⌋`, computed exactly through `lnThresholds`. -/
def tableSize (n : Int) : Except PyErr Nat :=
  if n ≤ 0 then .error .valueError
  else .ok ((lnThresholds.filter (fun t => (t : Int) ≤ n)).length)

/-- Python `FibonacciHeap.__link(node1, node2)`. -/
def link (h : Heap) (n1 n2 : Nat) : Heap :=
  let h := remove h n1
  let h := modifyN h n1 (fun x => { x with parent := some n2 })
  let h :=
    match (getN h n2).child with
    | none =>
      let h := modifyN h n1 (fun x => { x with left := n1, right := n1 })
      modifyN h n2 (fun x => { x with child := some n1 })
    | some c => add h c n1
  let h := modifyN h n2 (fun x => { x with degree := x.degree + 1 })
  modifyN h n1 (fun x => { x with mark := false })

/-- The `while deg_list[node_deg] is not None` loop of `__consolidate`,
acting on the heap, the degree table, the running `xnode` and `node_deg`.
Fuel exhaustion cannot occur (each pass increments `node_deg`, and an
out-of-range probe exits with `IndexError` first). -/
def mergeInner (h : Heap) (dl : List (Option Nat)) (x : Nat) (d : Int) :
    Nat → Except PyErr (Heap × List (Option Nat) × Nat × Int)
  | 0 => .error .nonTerm
  | fuel + 1 => do
    let slot ← pyGet dl d
    match slot with
    | none => pure (h, dl, x, d)
    | some y =>
      let xy : Nat × Nat :=
        if Key.blt (getN h y).key (getN h x).key then (y, x) else (x, y)
      let h := link h xy.2 xy.1
      let dl ← pySet dl d none
      mergeInner h dl xy.1 (d + 1) fuel

/-- The `for node in nodes` loop of `__consolidate`. -/
def mergeOuter (h : Heap) (dl : List (Option Nat)) :
    List Nat → Except PyErr (Heap × List (Option Nat))
  | [] => pure (h, dl)
  | n :: rest => do
    let r ← mergeInner h dl n (getN h n).degree (dl.length + (getN h n).degree.natAbs + 2)
    let dl ← pySet r.2.1 r.2.2.2 (some r.2.2.1)
    mergeOuter r.1 dl rest

/-- The `for deg_node in deg_list` rebuild loop of `__consolidate`
(`if not self.min` is the `None` test: a `Node` object is always truthy). -/
def rebuild (h : Heap) : List (Option Nat) → Heap
  | [] => h
  | none :: rest => rebuild h rest
  | some x :: rest =>
    match h.min with
    | none =>
      rebuild { (modifyN h x (fun n => { n with right := x, left := x })) with
                min := some x } rest
    | some m =>
      let h := add h m x
      let h := if Key.blt (getN h x).key (getN h m).key then { h with min := some x }
               else h
      rebuild h rest

/-- Python `FibonacciHeap.__consolidate`. -/
def consolidate (h : Heap) : Except PyErr Heap := do
  let ts ← tableSize h.num_nodes
  let dl : List (Option Nat) := List.replicate ts none
  match h.min with
  | none => .error .attrError
  | some m =>
    match siblings h m with
    | none => .error .nonTerm
    | some nodes => do
      let r ← mergeOuter h dl nodes
      pure (rebuild r.1 r.2)

/-- Python `FibonacciHeap.insert`.  The method has no `return` statement
(annotated `-> None`), so its value is `None`: the first component of the
result is that returned value, the second the updated heap.  The node the
call creates is the arena cell `h.nodes.length`. -/
def insert (h : Heap) (key : Key) : Option Nat × Heap :=
  let nid := h.nodes.length
  let node : Node := { key := key, parent := none, child := none,
                       left := nid, right := nid, degree := 0, mark := false }
  let h := { h with nodes := h.nodes ++ [node] }
  let h :=
    match h.min with
    | some m =>
      let h := add h m nid
      if Key.blt key (getN h m).key then { h with min := some nid } else h
    | none => { h with min := some nid }
  (none, { h with num_nodes := h.num_nodes + 1 })

/-- Python `FibonacciHeap.minimum` (`self.min.key`; `AttributeError` when `min`
is `None`). -/
def minimum (h : Heap) : Except PyErr Key :=
  match h.min with
  | none => .error .attrError
  | some m => .ok (getN h m).key

/-- Python `FibonacciHeap.extract_minimum`.  Returns the Python return value
(`None` on an empty heap, otherwise the extracted key) with the updated
heap. -/
def extract_minimum (h : Heap) : Except PyErr (Option Key × Heap) :=
  match h.min with
  | none => .ok (none, h)
  | some mn => do
    let h ←
      match (getN h mn).child with
      | none => pure h
      | some c =>
        match siblings h c with
        | none => .error .nonTerm
        | some rs =>
          pure (rs.foldl
            (fun hh r => add (modifyN hh r (fun x => { x with parent := none })) mn r)
            h)
    let h := remove h mn
    if (getN h mn).right = mn then
      pure (some (getN h mn).key, { h with min := none, num_nodes := h.num_nodes - 1 })
    else do
      let h := { h with min := some (getN h mn).right }
      let h ← consolidate h
      pure (some (getN h mn).key, { h with num_nodes := h.num_nodes - 1 })

/-- Python `FibonacciHeap.__cut(node, parent)` (`self.min.add(node)` dereferences
`self.min`, hence `AttributeError` when it is `None`). -/
def cut (h : Heap) (n p : Nat) : Except PyErr Heap :=
  let h := remove h n
  let h := if (getN h n).right = n then modifyN h p (fun x => { x with child := none })
           else h
  let h := modifyN h p (fun x => { x with degree := x.degree - 1 })
  match h.min with
  | none => .error .attrError
  | some m =>
    let h := add h m n
    let h := modifyN h n (fun x => { x with parent := none })
    pure (modifyN h n (fun x => { x with mark := false }))

/-- Python `FibonacciHeap.__cascading_cut`.  Fuel exhaustion cannot occur on any
call made by `decrease_key` (each recursive step first cuts a distinct
node, and a cut node has no parent). -/
def cascading_cut (h : Heap) (n : Nat) : Nat → Except PyErr Heap
  | 0 => .error .nonTerm
  | fuel + 1 =>
    match (getN h n).parent with
    | none => pure h
    | some p =>
      if (getN h n).mark = false then
        pure (modifyN h n (fun x => { x with mark := true }))
      else do
        let h ← cut h n p
        cascading_cut h p fuel

/-- Python `FibonacciHeap.decrease_key(node, new_key)`. -/
def decrease_key (h : Heap) (nid : Nat) (newKey : Key) : Except PyErr Heap :=
  if Key.blt (getN h nid).key newKey then pure h
  else do
    let h := modifyN h nid (fun x => { x with key := newKey })
    let h ←
      match (getN h nid).parent with
      | none => pure h
      | some p =>
        if Key.blt (getN h nid).key (getN h p).key then do
          let h ← cut h nid p
          cascading_cut h p (h.nodes.length + 2)
        else pure h
    match h.min with
    | none => .error .attrError
    | some m =>
      if Key.blt (getN h nid).key (getN h m).key then pure { h with min := some nid }
      else pure h

/-- Python `FibonacciHeap.delete(node)`: `decrease_key(node, float(-inf))` then
`extract_minimum()` (whose result Python discards; we keep it so the
post-state and extracted key can be specified). -/
def delete (h : Heap) (nid : Nat) : Except PyErr (Option Key × Heap) := do
  let h ← decrease_key h nid Key.ninf
  extract_minimum h

/-- Python `FibonacciHeap.__len__`. -/
def size (h : Heap) : Int := h.num_nodes

/-- Insert a list of integer keys left to right. -/
def insertList (h : Heap) (ks : List Int) : Heap :=
  ks.foldl (fun h k => (insert h (Key.kint k)).2) h

/-- Run `n` successive `extract_minimum` calls, collecting the returned
values. -/
def runExtracts : Nat → Heap → Except PyErr (List (Option Key))
  | 0, _ => .ok []
  | n + 1, h => do
    let r ← extract_minimum h
    let ks ← runExtracts n r.2
    pure (r.1 :: ks)

/-- Run `n` successive `extract_minimum` calls, keeping the final heap. -/
def extractIter : Nat → Heap → Except PyErr Heap
  | 0, h => .ok h
  | n + 1, h => do
    let r ← extract_minimum h
    extractIter n r.2

def keyOf (h : Heap) (i : Nat) : Key := (getN h i).key

def parOf (h : Heap) (i : Nat) : Option Nat := (getN h i).parent

/-- Heap-order invariant: along every parent link the child's key is `≥`
the parent's key. -/
def HeapOrd (h : Heap) : Prop :=
  ∀ i p, parOf h i = some p → Key.blt (keyOf h i) (keyOf h p) = false

/-- Heap order with the obligation of a single node `x` (against its own
parent) suspended; used across the transient states of `decrease_key`. -/
def HeapOrdX (h : Heap) (x : Nat) : Prop :=
  ∀ i p, parOf h i = some p → i ≠ x → Key.blt (keyOf h i) (keyOf h p) = false

/-- States `h'` and `h` agree on every node's `key` and `parent` fields. -/
def SameKP (h h' : Heap) : Prop :=
  ∀ j, keyOf h' j = keyOf h j ∧ parOf h' j = parOf h j

def NodeIds (sz : Nat) (n : Node) : Prop :=
  (∀ p, n.parent = some p → p < sz) ∧ (∀ c, n.child = some c → c < sz) ∧
  n.left < sz ∧ n.right < sz

def IdsOk (h : Heap) : Prop :=
  (∀ i, i < h.nodes.length → NodeIds h.nodes.length (getN h i)) ∧
  ∀ m, h.min = some m → m < h.nodes.length

def Inv (h : Heap) : Prop := IdsOk h ∧ HeapOrd h

/-- Every node reference stored in the degree table is a valid index. -/
def TblOk (h : Heap) (dl : List (Option Nat)) : Prop :=
  ∀ y, some y ∈ dl → y < h.nodes.length

/-- The states a `FibonacciHeap` can be in between public operations:
obtained from a fresh heap by completed `insert`, `extract_minimum`,
`decrease_key` and `delete` calls, where handles passed to `decrease_key`
and `delete` are nodes this heap created (arena indices). -/
inductive Reachable : Heap → Prop where
  | empty : Reachable emptyHeap
  | insert_step {h : Heap} (k : Key) : Reachable h → Reachable (insert h k).2
  | extract_step {h : Heap} {out : Option Key × Heap} : Reachable h →
      extract_minimum h = .ok out → Reachable out.2
  | decrease_step {h : Heap} {nid : Nat} {k : Key} {h' : Heap} : Reachable h →
      nid < h.nodes.length → decrease_key h nid k = .ok h' → Reachable h'
  | delete_step {h : Heap} {nid : Nat} {out : Option Key × Heap} : Reachable h →
      nid < h.nodes.length → delete h nid = .ok out → Reachable out.2


/-! ## Concrete traces used by individual claims -/

/-- The heap after inserting `5, 3, 8, 1, 9, 2` and completing five
`extract_minimum` calls. -/
def c2State : Heap :=
  (extractIter 5 (insertList emptyHeap [5, 3, 8, 1, 9, 2])).toOption.getD emptyHeap

/-- Insert `1, 10, 30, 20, 40, 50, 60, 70, 80` (arena ids `0`–`8`), extract
the minimum `1` (consolidating the eight remaining roots into one
degree-3 tree rooted at node `1`, key `10`), decrease node `4` (key `40`,
a grandchild) to `2` — which cuts it and marks its parent, node `3` —
then extract the `2`.  Seven nodes remain: the degree-3 tree. -/
def c46Prefix : Except PyErr Heap := do
  let r1 ← extract_minimum (insertList emptyHeap [1, 10, 30, 20, 40, 50, 60, 70, 80])
  let h ← decrease_key r1.2 4 (Key.kint 2)
  let r2 ← extract_minimum h
  pure r2.2

/-- Continue `c46Prefix`: decrease node `8` (key `80`, the deepest
grandchild) to `3`, cutting it to the root list.  The heap now holds seven
nodes: the cut node (the minimum) and a degree-3 root. -/
def c4Pre : Heap :=
  ((c46Prefix >>= fun h => decrease_key h 8 (Key.kint 3))).toOption.getD emptyHeap

/-- Continue `c46Prefix` with one more `extract_minimum` (removing the
degree-3 root, key `10`, whose marked child node `3` is promoted). -/
def c6Run : Except PyErr (Option Key × Heap) :=
  c46Prefix >>= extract_minimum

def c6State : Heap := (c6Run.toOption.getD (none, emptyHeap)).2

/-- A two-node heap used to exercise `cut` directly. -/
def c6CutDemo : Heap := insertList emptyHeap [7, 9]

/-- Insert the duplicate keys `4, 4, 4`, delete the handle of the first,
then report the size and the results of two further extractions. -/
def c9Run : Except PyErr (Int × List (Option Key)) := do
  let r ← delete (insertList emptyHeap [4, 4, 4]) 0
  let ks ← runExtracts 2 r.2
  pure (size r.2, ks)


/-! ## Basic facts about the arena and the ring primitives -/

theorem length_modifyN (h : Heap) (i : Nat) (f : Node → Node) :
    (modifyN h i f).nodes.length = h.nodes.length := by
  simp [modifyN]

theorem min_modifyN (h : Heap) (i : Nat) (f : Node → Node) :
    (modifyN h i f).min = h.min := rfl

theorem num_modifyN (h : Heap) (i : Nat) (f : Node → Node) :
    (modifyN h i f).num_nodes = h.num_nodes := rfl

theorem getN_modifyN_self (h : Heap) {i : Nat} (f : Node → Node)
    (hi : i < h.nodes.length) : getN (modifyN h i f) i = f (getN h i) := by
  simp [getN, modifyN, List.getElem?_set_eq_of_lt _ hi]

theorem getN_modifyN_ne (h : Heap) {i j : Nat} (f : Node → Node) (hij : i ≠ j) :
    getN (modifyN h i f) j = getN h j := by
  simp [getN, modifyN, List.getElem?_set_ne hij]

theorem modifyN_oob (h : Heap) {i : Nat} (f : Node → Node)
    (hi : h.nodes.length ≤ i) : modifyN h i f = h := by
  simp [modifyN, List.set_eq_of_length_le hi]

theorem getN_oob (h : Heap) {i : Nat} (hi : h.nodes.length ≤ i) :
    getN h i = default := by
  simp [getN, List.getElem?_len_le hi]

/-! ## Order facts about keys -/

theorem Key.blt_asymm {a b : Key} (h : Key.blt a b = true) : Key.blt b a = false := by
  cases a <;> cases b <;> simp_all [Key.blt] <;> omega

theorem Key.blt_false_trans {a b c : Key} (h1 : Key.blt a b = false)
    (h2 : Key.blt b c = false) : Key.blt a c = false := by
  cases a <;> cases b <;> cases c <;> simp_all [Key.blt] <;> omega

/-! ## Heap order: every parent link points to a key that is `≤` the
child's key (`Key.blt x y = false` says `x ≥ y`). -/

theorem HeapOrd.toX {h : Heap} (ho : HeapOrd h) (x : Nat) : HeapOrdX h x :=
  fun i p hp _ => ho i p hp

theorem sameKP_refl (h : Heap) : SameKP h h := fun _ => ⟨rfl, rfl⟩

theorem sameKP_trans {h1 h2 h3 : Heap} (a : SameKP h1 h2) (b : SameKP h2 h3) :
    SameKP h1 h3 :=
  fun j => ⟨(b j).1.trans (a j).1, (b j).2.trans (a j).2⟩

theorem heapOrd_sameKP {h h' : Heap} (s : SameKP h h') (ho : HeapOrd h) :
    HeapOrd h' := by
  intro i p hp
  rw [(s i).1, (s p).1]
  exact ho i p ((s i).2 ▸ hp)

theorem heapOrdX_sameKP {h h' : Heap} {x : Nat} (s : SameKP h h')
    (ho : HeapOrdX h x) : HeapOrdX h' x := by
  intro i p hp hix
  rw [(s i).1, (s p).1]
  exact ho i p ((s i).2 ▸ hp) hix

theorem sameKP_modifyN (h : Heap) (i : Nat) (f : Node → Node)
    (hf : ∀ n, (f n).key = n.key ∧ (f n).parent = n.parent) :
    SameKP h (modifyN h i f) := by
  intro j
  by_cases hi : i < h.nodes.length
  · by_cases hij : i = j
    · subst hij
      rw [keyOf, parOf, getN_modifyN_self h f hi, (hf _).1, (hf _).2]
      exact ⟨rfl, rfl⟩
    · rw [keyOf, parOf, getN_modifyN_ne h f hij]; exact ⟨rfl, rfl⟩
  · rw [modifyN_oob h f (Nat.le_of_not_lt hi)]; exact ⟨rfl, rfl⟩

theorem sameKP_add (h : Heap) (s n : Nat) : SameKP h (add h s n) := by
  unfold add
  refine sameKP_trans (sameKP_trans (sameKP_modifyN _ _ _ ?_) (sameKP_modifyN _ _ _ ?_))
    (sameKP_modifyN _ _ _ ?_) <;> intro m <;> exact ⟨rfl, rfl⟩

theorem sameKP_remove (h : Heap) (n : Nat) : SameKP h (remove h n) := by
  unfold remove
  refine sameKP_trans (sameKP_modifyN _ _ _ ?_) (sameKP_modifyN _ _ _ ?_) <;>
    intro m <;> exact ⟨rfl, rfl⟩

/-! ## Id-range invariant: every stored node reference is a valid arena
index.  Needed so that `insert`'s arena extension cannot capture a dangling
reference. -/

theorem NodeIds.mono {sz sz' : Nat} {n : Node} (hle : sz ≤ sz')
    (hn : NodeIds sz n) : NodeIds sz' n :=
  ⟨fun p hp => Nat.lt_of_lt_of_le (hn.1 p hp) hle,
   fun c hc => Nat.lt_of_lt_of_le (hn.2.1 c hc) hle,
   Nat.lt_of_lt_of_le hn.2.2.1 hle, Nat.lt_of_lt_of_le hn.2.2.2 hle⟩

theorem idsOk_modifyN {h : Heap} (i : Nat) {f : Node → Node} (hids : IdsOk h)
    (hf : ∀ n, NodeIds h.nodes.length n → NodeIds h.nodes.length (f n)) :
    IdsOk (modifyN h i f) := by
  constructor
  · intro j hj
    rw [length_modifyN] at hj
    by_cases hi : i < h.nodes.length
    · by_cases hij : i = j
      · subst hij
        rw [length_modifyN, getN_modifyN_self h f hi]
        exact hf _ (hids.1 i hi)
      · rw [length_modifyN, getN_modifyN_ne h f hij]
        exact hids.1 j hj
    · rw [modifyN_oob h f (Nat.le_of_not_lt hi)] at *
      exact hids.1 j hj
  · intro m hm
    rw [length_modifyN]
    exact hids.2 m (by rwa [min_modifyN] at hm)

theorem NodeIds.setLR {sz : Nat} {m : Node} (hm : NodeIds sz m) {v w : Nat}
    (hv : v < sz) (hw : w < sz) : NodeIds sz { m with left := v, right := w } :=
  ⟨hm.1, hm.2.1, hv, hw⟩

theorem NodeIds.setL {sz : Nat} {m : Node} (hm : NodeIds sz m) {v : Nat}
    (hv : v < sz) : NodeIds sz { m with left := v } :=
  ⟨hm.1, hm.2.1, hv, hm.2.2.2⟩

theorem NodeIds.setR {sz : Nat} {m : Node} (hm : NodeIds sz m) {v : Nat}
    (hv : v < sz) : NodeIds sz { m with right := v } :=
  ⟨hm.1, hm.2.1, hm.2.2.1, hv⟩

theorem idsOk_add {h : Heap} {s n : Nat} (hids : IdsOk h)
    (hs : s < h.nodes.length) (hn : n < h.nodes.length) : IdsOk (add h s n) := by
  have hsl : (getN h s).left < h.nodes.length := (hids.1 s hs).2.2.1
  unfold add
  refine idsOk_modifyN _ (idsOk_modifyN _ (idsOk_modifyN _ hids
      (fun m hm => hm.setLR hsl hs)) ?_) ?_
  · simp only [length_modifyN]
    exact fun m hm => hm.setR hn
  · simp only [length_modifyN]
    exact fun m hm => hm.setL hn

theorem idsOk_remove {h : Heap} {n : Nat} (hids : IdsOk h)
    (hn : n < h.nodes.length) : IdsOk (remove h n) := by
  have hnl : (getN h n).left < h.nodes.length := (hids.1 n hn).2.2.1
  have hnr : (getN h n).right < h.nodes.length := (hids.1 n hn).2.2.2
  unfold remove
  refine idsOk_modifyN _ (idsOk_modifyN _ hids (fun m hm => hm.setR hnr)) ?_
  simp only [length_modifyN]
  exact fun m hm => hm.setL hnl

theorem length_add (h : Heap) (s n : Nat) :
    (add h s n).nodes.length = h.nodes.length := by
  simp [add, length_modifyN]

theorem min_add (h : Heap) (s n : Nat) : (add h s n).min = h.min := rfl

theorem num_add (h : Heap) (s n : Nat) : (add h s n).num_nodes = h.num_nodes := rfl

theorem length_remove (h : Heap) (n : Nat) :
    (remove h n).nodes.length = h.nodes.length := by
  simp [remove, length_modifyN]

theorem min_remove (h : Heap) (n : Nat) : (remove h n).min = h.min := rfl

theorem num_remove (h : Heap) (n : Nat) : (remove h n).num_nodes = h.num_nodes := rfl

/-! ## Heap-order preservation through the individual mutations -/

theorem keyOf_sameKP {h h' : Heap} (s : SameKP h h') (j : Nat) :
    keyOf h' j = keyOf h j := (s j).1

theorem heapOrd_setParent {h : Heap} {i j : Nat} (ho : HeapOrd h)
    (hk : Key.blt (keyOf h i) (keyOf h j) = false) :
    HeapOrd (modifyN h i (fun x => { x with parent := some j })) := by
  intro a p hp
  by_cases hi : i < h.nodes.length
  · have hkeys : ∀ z, keyOf (modifyN h i (fun x => { x with parent := some j })) z
        = keyOf h z := by
      intro z
      by_cases hz : i = z
      · subst hz; rw [keyOf, getN_modifyN_self h _ hi]; rfl
      · rw [keyOf, getN_modifyN_ne h _ hz]; rfl
    by_cases hai : a = i
    · subst hai
      rw [parOf, getN_modifyN_self h _ hi] at hp
      have hpj : j = p := by simpa using hp
      subst hpj
      rw [hkeys, hkeys]; exact hk
    · rw [parOf, getN_modifyN_ne h _ (Ne.symm hai)] at hp
      rw [hkeys, hkeys]; exact ho a p hp
  · rw [modifyN_oob h _ (Nat.le_of_not_lt hi)] at *
    exact ho a p hp

theorem heapOrdX_clearParent {h : Heap} {x : Nat} (hx : HeapOrdX h x) :
    HeapOrd (modifyN h x (fun n => { n with parent := none })) := by
  intro i p hp
  by_cases hxr : x < h.nodes.length
  · have hkeys : ∀ z, keyOf (modifyN h x (fun n => { n with parent := none })) z
        = keyOf h z := by
      intro z
      by_cases hz : x = z
      · subst hz; rw [keyOf, getN_modifyN_self h _ hxr]; rfl
      · rw [keyOf, getN_modifyN_ne h _ hz]; rfl
    by_cases hix : i = x
    · subst hix
      rw [parOf, getN_modifyN_self h _ hxr] at hp
      simp at hp
    · rw [parOf, getN_modifyN_ne h _ (Ne.symm hix)] at hp
      rw [hkeys, hkeys]; exact hx i p hp hix
  · rw [modifyN_oob h _ (Nat.le_of_not_lt hxr)] at *
    by_cases hix : i = x
    · subst hix
      rw [parOf, getN_oob h (Nat.le_of_not_lt hxr)] at hp
      simp [default] at hp
    · exact hx i p hp hix

theorem heapOrd_clearParent {h : Heap} {x : Nat} (ho : HeapOrd h) :
    HeapOrd (modifyN h x (fun n => { n with parent := none })) :=
  heapOrdX_clearParent (ho.toX x)

theorem NodeIds.setPar {sz : Nat} {m : Node} (hm : NodeIds sz m) {v : Nat}
    (hv : v < sz) : NodeIds sz { m with parent := some v } :=
  ⟨fun _ hp => (Option.some.inj hp) ▸ hv, hm.2.1, hm.2.2.1, hm.2.2.2⟩

theorem NodeIds.setParNone {sz : Nat} {m : Node} (hm : NodeIds sz m) :
    NodeIds sz { m with parent := none } :=
  ⟨fun _ hp => Option.noConfusion hp, hm.2.1, hm.2.2.1, hm.2.2.2⟩

theorem NodeIds.setChild {sz : Nat} {m : Node} (hm : NodeIds sz m) {v : Nat}
    (hv : v < sz) : NodeIds sz { m with child := some v } :=
  ⟨hm.1, fun _ hc => (Option.some.inj hc) ▸ hv, hm.2.2.1, hm.2.2.2⟩

theorem NodeIds.setChildNone {sz : Nat} {m : Node} (hm : NodeIds sz m) :
    NodeIds sz { m with child := none } :=
  ⟨hm.1, fun _ hc => Option.noConfusion hc, hm.2.2.1, hm.2.2.2⟩

/-! ## Preservation through `link` -/

theorem heapOrd_link {h : Heap} {n1 n2 : Nat} (ho : HeapOrd h)
    (hk : Key.blt (keyOf h n1) (keyOf h n2) = false) : HeapOrd (link h n1 n2) := by
  have s1 := sameKP_remove h n1
  have hoB : HeapOrd (modifyN (remove h n1) n1 (fun x => { x with parent := some n2 })) :=
    heapOrd_setParent (heapOrd_sameKP s1 ho)
      (by rw [keyOf_sameKP s1, keyOf_sameKP s1]; exact hk)
  unfold link
  dsimp only
  split
  · refine heapOrd_sameKP ?_ hoB
    refine sameKP_trans (sameKP_trans (sameKP_trans (sameKP_modifyN _ _ _ ?_)
      (sameKP_modifyN _ _ _ ?_)) (sameKP_modifyN _ _ _ ?_)) (sameKP_modifyN _ _ _ ?_) <;>
      intro m <;> exact ⟨rfl, rfl⟩
  · refine heapOrd_sameKP ?_ hoB
    refine sameKP_trans (sameKP_trans (sameKP_add _ _ _)
      (sameKP_modifyN _ _ _ ?_)) (sameKP_modifyN _ _ _ ?_) <;>
      intro m <;> exact ⟨rfl, rfl⟩

theorem idsOk_link {h : Heap} {n1 n2 : Nat} (hids : IdsOk h)
    (h1 : n1 < h.nodes.length) (h2 : n2 < h.nodes.length) : IdsOk (link h n1 n2) := by
  have hidsB : IdsOk (modifyN (remove h n1) n1 (fun x => { x with parent := some n2 })) := by
    refine idsOk_modifyN _ (idsOk_remove hids h1) ?_
    simp only [length_remove]
    exact fun m hm => hm.setPar h2
  have hlenB : (modifyN (remove h n1) n1
      (fun x => { x with parent := some n2 })).nodes.length = h.nodes.length := by
    simp [length_modifyN, length_remove]
  unfold link
  dsimp only
  split
  · refine idsOk_modifyN _ (idsOk_modifyN _ (idsOk_modifyN _ (idsOk_modifyN _ hidsB ?_) ?_) ?_) ?_ <;>
      simp only [length_modifyN, hlenB]
    · exact fun m hm => hm.setLR h1 h1
    · exact fun m hm => hm.setChild h1
    · exact fun m hm => hm
    · exact fun m hm => hm
  · next c hc =>
    have hcl : c < h.nodes.length := by
      by_cases hr : n2 < (modifyN (remove h n1)
          n1 (fun x => { x with parent := some n2 })).nodes.length
      · have := (hidsB.1 n2 hr).2.1 c hc
        rwa [hlenB] at this
      · rw [getN_oob _ (Nat.le_of_not_lt hr)] at hc
        exact absurd hc (by simp [default])
    refine idsOk_modifyN _ (idsOk_modifyN _ (idsOk_add hidsB ?_ ?_) ?_) ?_
    · rwa [hlenB]
    · rwa [hlenB]
    · simp only [length_add, hlenB]
      exact fun m hm => hm
    · simp only [length_modifyN, length_add, hlenB]
      exact fun m hm => hm

theorem length_link (h : Heap) (n1 n2 : Nat) :
    (link h n1 n2).nodes.length = h.nodes.length := by
  unfold link
  dsimp only
  split <;> simp [length_modifyN, length_add, length_remove]

theorem min_link (h : Heap) (n1 n2 : Nat) : (link h n1 n2).min = h.min := by
  unfold link
  dsimp only
  split <;> rfl

theorem num_link (h : Heap) (n1 n2 : Nat) : (link h n1 n2).num_nodes = h.num_nodes := by
  unfold link
  dsimp only
  split <;> rfl

/-! ## Membership facts for `siblings`, `pyGet`, `pySet` -/

theorem sibsLoop_mem {h : Heap} {s : Nat} (hids : IdsOk h) :
    ∀ fuel cur acc l, cur < h.nodes.length → (∀ x ∈ acc, x < h.nodes.length) →
      sibsLoop h s fuel cur acc = some l → ∀ x ∈ l, x < h.nodes.length := by
  intro fuel
  induction fuel with
  | zero => intro cur acc l _ _ heq; cases heq
  | succ m ih =>
    intro cur acc l hcur hacc heq
    unfold sibsLoop at heq
    by_cases hc : cur = s
    · rw [if_pos hc] at heq; cases heq; exact hacc
    · rw [if_neg hc] at heq
      have hl : (getN h cur).left < h.nodes.length := (hids.1 cur hcur).2.2.1
      refine ih _ _ _ hl ?_ heq
      intro x hx
      rcases List.mem_append.1 hx with hx | hx
      · exact hacc x hx
      · simp at hx; subst hx; exact hl

theorem siblings_mem {h : Heap} {s : Nat} {l : List Nat} (hids : IdsOk h)
    (hs : s < h.nodes.length) (heq : siblings h s = some l) :
    ∀ x ∈ l, x < h.nodes.length := by
  unfold siblings at heq
  by_cases hc : (getN h s).left = s
  · rw [if_pos hc] at heq
    cases heq
    intro x hx; simp at hx; subst hx; exact hs
  · rw [if_neg hc] at heq
    have h1 : (getN h s).left < h.nodes.length := (hids.1 s hs).2.2.1
    have h2 : (getN h ((getN h s).left)).left < h.nodes.length := (hids.1 _ h1).2.2.1
    refine sibsLoop_mem hids _ _ _ _ h2 ?_ heq
    intro x hx
    rcases List.mem_cons.1 hx with hx | hx
    · subst hx; exact h1
    · simp at hx; subst hx; exact h2

theorem pyGet_mem {dl : List (Option Nat)} {d : Int} {y : Nat}
    (hg : pyGet dl d = .ok (some y)) : some y ∈ dl := by
  unfold pyGet at hg
  split at hg
  · have hv : (dl.get? d.toNat).getD none = some y := by
      injection hg
    cases hget : dl.get? d.toNat with
    | none => rw [hget] at hv; cases hv
    | some v =>
      rw [hget] at hv
      simp at hv; subst hv
      exact List.get?_mem hget
  · split at hg
    · have hv : (dl.get? (d + dl.length).toNat).getD none = some y := by
        injection hg
      cases hget : dl.get? (d + dl.length).toNat with
      | none => rw [hget] at hv; cases hv
      | some v =>
        rw [hget] at hv
        simp at hv; subst hv
        exact List.get?_mem hget
    · cases hg

theorem mem_of_mem_set {α : Type} {l : List α} {i : Nat} {a x : α}
    (hx : x ∈ l.set i a) : x ∈ l ∨ x = a := by
  induction l generalizing i with
  | nil => simp [List.set] at hx
  | cons b t ih =>
    cases i with
    | zero =>
      rcases List.mem_cons.1 hx with hx | hx
      · exact Or.inr hx
      · exact Or.inl (List.mem_cons_of_mem _ hx)
    | succ j =>
      rcases List.mem_cons.1 hx with hx | hx
      · exact Or.inl (hx ▸ List.mem_cons_self _ _)
      · rcases ih hx with hx | hx
        · exact Or.inl (List.mem_cons_of_mem _ hx)
        · exact Or.inr hx

theorem pySet_sub {dl dl' : List (Option Nat)} {d : Int} {v : Option Nat}
    (hs : pySet dl d v = .ok dl') : ∀ w ∈ dl', w ∈ dl ∨ w = v := by
  unfold pySet at hs
  split at hs
  · cases hs; exact fun w hw => mem_of_mem_set hw
  · split at hs
    · cases hs; exact fun w hw => mem_of_mem_set hw
    · cases hs

/-! ## The combined invariant and its preservation through consolidation -/

theorem exc_bind_ok {α β : Type} (a : α) (f : α → Except PyErr β) :
    (Except.ok a >>= f) = f a := rfl

theorem exc_bind_err {α β : Type} (e : PyErr) (f : α → Except PyErr β) :
    ((Except.error e : Except PyErr α) >>= f) = .error e := rfl

theorem exc_pure {α : Type} (a : α) : (pure a : Except PyErr α) = .ok a := rfl

theorem inv_setMin {h : Heap} {x : Nat} (hinv : Inv h) (hx : x < h.nodes.length) :
    Inv { h with min := some x } :=
  ⟨⟨hinv.1.1, fun m hm => (Option.some.inj hm) ▸ hx⟩, hinv.2⟩

theorem inv_setMinNone {h : Heap} (hinv : Inv h) : Inv { h with min := none } :=
  ⟨⟨hinv.1.1, fun _ hm => Option.noConfusion hm⟩, hinv.2⟩

theorem inv_setNum {h : Heap} {z : Int} (hinv : Inv h) :
    Inv { h with num_nodes := z } := hinv

theorem mergeInner_inv :
    ∀ (fuel : Nat) {h : Heap} {dl : List (Option Nat)} {x : Nat} {d : Int}
      {out : Heap × List (Option Nat) × Nat × Int},
      Inv h → TblOk h dl → x < h.nodes.length →
      mergeInner h dl x d fuel = .ok out →
      Inv out.1 ∧ out.1.nodes.length = h.nodes.length ∧ out.1.min = h.min ∧
        out.1.num_nodes = h.num_nodes ∧ TblOk out.1 out.2.1 ∧
        out.2.2.1 < h.nodes.length := by
  intro fuel
  induction fuel with
  | zero => intro h dl x d out _ _ _ heq; cases heq
  | succ m ih =>
    intro h dl x d out hinv htbl hx heq
    unfold mergeInner at heq
    cases hg : pyGet dl d with
    | error e => rw [hg, exc_bind_err] at heq; cases heq
    | ok slot =>
      rw [hg, exc_bind_ok] at heq
      cases slot with
      | none =>
        rw [exc_pure] at heq
        cases heq
        exact ⟨hinv, rfl, rfl, rfl, htbl, hx⟩
      | some y =>
        have hy : y < h.nodes.length := htbl y (pyGet_mem hg)
        dsimp only at heq
        by_cases hswap : Key.blt (getN h y).key (getN h x).key = true
        · rw [if_pos hswap] at heq
          dsimp only at heq
          cases hps : pySet dl d none with
          | error e => rw [hps, exc_bind_err] at heq; cases heq
          | ok dl2 =>
            rw [hps, exc_bind_ok] at heq
            have hinv2 : Inv (link h x y) :=
              ⟨idsOk_link hinv.1 hx hy, heapOrd_link hinv.2 (Key.blt_asymm hswap)⟩
            have htbl2 : TblOk (link h x y) dl2 := by
              intro z hz
              rcases pySet_sub hps _ hz with hz | hz
              · rw [length_link]; exact htbl z hz
              · cases hz
            have hy2 : y < (link h x y).nodes.length := by rwa [length_link]
            have hc := ih hinv2 htbl2 hy2 heq
            rw [length_link, min_link, num_link] at hc
            exact hc
        · rw [if_neg hswap] at heq
          dsimp only at heq
          cases hps : pySet dl d none with
          | error e => rw [hps, exc_bind_err] at heq; cases heq
          | ok dl2 =>
            rw [hps, exc_bind_ok] at heq
            have hinv2 : Inv (link h y x) :=
              ⟨idsOk_link hinv.1 hy hx,
               heapOrd_link hinv.2 (Bool.eq_false_iff.2 fun hb => hswap hb)⟩
            have htbl2 : TblOk (link h y x) dl2 := by
              intro z hz
              rcases pySet_sub hps _ hz with hz | hz
              · rw [length_link]; exact htbl z hz
              · cases hz
            have hx2 : x < (link h y x).nodes.length := by rwa [length_link]
            have hc := ih hinv2 htbl2 hx2 heq
            rw [length_link, min_link, num_link] at hc
            exact hc

theorem mergeOuter_inv :
    ∀ (ns : List Nat) {h : Heap} {dl : List (Option Nat)}
      {out : Heap × List (Option Nat)},
      Inv h → TblOk h dl → (∀ x ∈ ns, x < h.nodes.length) →
      mergeOuter h dl ns = .ok out →
      Inv out.1 ∧ out.1.nodes.length = h.nodes.length ∧ out.1.min = h.min ∧
        out.1.num_nodes = h.num_nodes ∧ TblOk out.1 out.2 := by
  intro ns
  induction ns with
  | nil =>
    intro h dl out hinv htbl _ heq
    unfold mergeOuter at heq
    rw [exc_pure] at heq
    cases heq
    exact ⟨hinv, rfl, rfl, rfl, htbl⟩
  | cons n rest ih =>
    intro h dl out hinv htbl hns heq
    unfold mergeOuter at heq
    cases hmi : mergeInner h dl n (getN h n).degree
        (dl.length + (getN h n).degree.natAbs + 2) with
    | error e => rw [hmi, exc_bind_err] at heq; cases heq
    | ok r =>
      rw [hmi, exc_bind_ok] at heq
      have hn : n < h.nodes.length := hns n (List.mem_cons_self _ _)
      have hr := mergeInner_inv _ hinv htbl hn hmi
      cases hps : pySet r.2.1 r.2.2.2 (some r.2.2.1) with
      | error e => rw [hps, exc_bind_err] at heq; cases heq
      | ok dl2 =>
        rw [hps, exc_bind_ok] at heq
        have htbl2 : TblOk r.1 dl2 := by
          intro z hz
          rcases pySet_sub hps _ hz with hz | hz
          · exact hr.2.2.2.2.1 z hz
          · cases hz
            rw [hr.2.1]
            exact hr.2.2.2.2.2
        have hrest : ∀ x ∈ rest, x < r.1.nodes.length := by
          intro x hxr
          rw [hr.2.1]
          exact hns x (List.mem_cons_of_mem _ hxr)
        have hc := ih hr.1 htbl2 hrest heq
        rw [hr.2.1] at hc
        rw [hr.2.2.1] at hc
        rw [hr.2.2.2.1] at hc
        exact hc

theorem rebuild_inv :
    ∀ (dl : List (Option Nat)) {h : Heap}, Inv h → TblOk h dl →
      Inv (rebuild h dl) ∧ (rebuild h dl).nodes.length = h.nodes.length ∧
        (rebuild h dl).num_nodes = h.num_nodes := by
  intro dl
  induction dl with
  | nil => intro h hinv _; exact ⟨hinv, rfl, rfl⟩
  | cons e rest ih =>
    intro h hinv htbl
    have htblr : TblOk h rest := fun y hy => htbl y (List.mem_cons_of_mem _ hy)
    cases e with
    | none => exact ih hinv htblr
    | some x =>
      have hx : x < h.nodes.length := htbl x (List.mem_cons_self _ _)
      unfold rebuild
      dsimp only
      cases hm : h.min with
      | none =>
        have hinv2 : Inv { (modifyN h x fun n => { n with right := x, left := x })
            with min := some x } := by
          refine inv_setMin ⟨?_, ?_⟩ ?_
          · exact idsOk_modifyN x hinv.1 (fun m hm => ⟨hm.1, hm.2.1, hx, hx⟩)
          · exact heapOrd_sameKP (sameKP_modifyN _ _ _ (fun m => ⟨rfl, rfl⟩)) hinv.2
          · rwa [length_modifyN]
        have htbl2 : TblOk { (modifyN h x fun n => { n with right := x, left := x })
            with min := some x } rest := by
          intro y hy
          have : (({ (modifyN h x fun n => { n with right := x, left := x })
              with min := some x } : Heap)).nodes.length = h.nodes.length := by
            simp [length_modifyN]
          rw [this]
          exact htblr y hy
        have hc := ih hinv2 htbl2
        simpa [length_modifyN] using hc
      | some mn =>
        dsimp only
        have hmn : mn < h.nodes.length := hinv.1.2 mn hm
        have hinvA : Inv (add h mn x) :=
          ⟨idsOk_add hinv.1 hmn hx, heapOrd_sameKP (sameKP_add h mn x) hinv.2⟩
        by_cases hcmp : Key.blt (getN (add h mn x) x).key (getN (add h mn x) mn).key = true
        · rw [if_pos hcmp]
          have hinv2 : Inv { add h mn x with min := some x } :=
            inv_setMin hinvA (by rwa [length_add])
          have htbl2 : TblOk { add h mn x with min := some x } rest := by
            intro y hy
            have hlen : ({ add h mn x with min := some x } : Heap).nodes.length
                = h.nodes.length := by simp [length_add]
            rw [hlen]
            exact htblr y hy
          have hc := ih hinv2 htbl2
          simpa [length_add] using hc
        · rw [if_neg hcmp]
          have htbl2 : TblOk (add h mn x) rest := by
            intro y hy
            rw [length_add]
            exact htblr y hy
          have hc := ih hinvA htbl2
          simpa [length_add] using hc

theorem consolidate_inv {h h' : Heap} (hinv : Inv h)
    (heq : consolidate h = .ok h') :
    Inv h' ∧ h'.nodes.length = h.nodes.length ∧ h'.num_nodes = h.num_nodes := by
  unfold consolidate at heq
  cases hts : tableSize h.num_nodes with
  | error e => rw [hts, exc_bind_err] at heq; cases heq
  | ok ts =>
    rw [hts, exc_bind_ok] at heq
    dsimp only at heq
    cases hm : h.min with
    | none => rw [hm] at heq; cases heq
    | some m =>
      rw [hm] at heq
      dsimp only at heq
      have hmn : m < h.nodes.length := hinv.1.2 m hm
      cases hsib : siblings h m with
      | none => rw [hsib] at heq; cases heq
      | some ns =>
        rw [hsib] at heq
        dsimp only at heq
        have hns := siblings_mem hinv.1 hmn hsib
        have htbl0 : TblOk h (List.replicate ts none) := by
          intro y hy
          have := List.eq_of_mem_replicate hy
          cases this
        cases hmo : mergeOuter h (List.replicate ts none) ns with
        | error e => rw [hmo, exc_bind_err] at heq; cases heq
        | ok r =>
          rw [hmo, exc_bind_ok, exc_pure] at heq
          cases heq
          have hr := mergeOuter_inv _ hinv htbl0 hns hmo
          have hrb := rebuild_inv r.2 hr.1 hr.2.2.2.2
          refine ⟨hrb.1, ?_, ?_⟩
          · rw [hrb.2.1, hr.2.1]
          · rw [hrb.2.2, hr.2.2.2.1]

/-! ## Preservation through `extract_minimum` -/

theorem exc_pure_bind {α β : Type} (a : α) (f : α → Except PyErr β) :
    ((pure a : Except PyErr α) >>= f) = f a := rfl

theorem promo_inv :
    ∀ (rs : List Nat) (h : Heap) (mn : Nat), Inv h →
      mn < h.nodes.length → (∀ x ∈ rs, x < h.nodes.length) →
      Inv (rs.foldl
        (fun hh r => add (modifyN hh r (fun x => { x with parent := none })) mn r) h) ∧
      (rs.foldl
        (fun hh r => add (modifyN hh r (fun x => { x with parent := none })) mn r)
          h).nodes.length = h.nodes.length ∧
      (rs.foldl
        (fun hh r => add (modifyN hh r (fun x => { x with parent := none })) mn r)
          h).min = h.min ∧
      (rs.foldl
        (fun hh r => add (modifyN hh r (fun x => { x with parent := none })) mn r)
          h).num_nodes = h.num_nodes := by
  intro rs
  induction rs with
  | nil => intro h mn hinv _ _; exact ⟨hinv, rfl, rfl, rfl⟩
  | cons r rest ih =>
    intro h mn hinv hmn hrs
    have hr : r < h.nodes.length := hrs r (List.mem_cons_self _ _)
    have hstep : Inv (add (modifyN h r fun x => { x with parent := none }) mn r) := by
      constructor
      · refine idsOk_add (idsOk_modifyN r hinv.1 (fun m hm => hm.setParNone)) ?_ ?_ <;>
          rwa [length_modifyN]
      · exact heapOrd_sameKP (sameKP_add _ mn r) (heapOrd_clearParent hinv.2)
    have hlen : (add (modifyN h r fun x => { x with parent := none })
        mn r).nodes.length = h.nodes.length := by
      rw [length_add, length_modifyN]
    have hmin : (add (modifyN h r fun x => { x with parent := none }) mn r).min
        = h.min := rfl
    have hnum : (add (modifyN h r fun x => { x with parent := none }) mn r).num_nodes
        = h.num_nodes := rfl
    have hc := ih _ mn hstep (by rwa [hlen])
      (fun x hx => by rw [hlen]; exact hrs x (List.mem_cons_of_mem _ hx))
    simp only [List.foldl_cons]
    rw [hlen, hmin, hnum] at hc
    exact hc

theorem extract_inv {h : Heap} {out : Option Key × Heap} (hinv : Inv h)
    (heq : extract_minimum h = .ok out) :
    Inv out.2 ∧ out.2.nodes.length = h.nodes.length := by
  unfold extract_minimum at heq
  cases hm : h.min with
  | none =>
    rw [hm] at heq
    cases heq
    exact ⟨hinv, rfl⟩
  | some mn =>
    rw [hm] at heq
    dsimp only at heq
    have hmn : mn < h.nodes.length := hinv.1.2 mn hm
    cases hc : (getN h mn).child with
    | none =>
      rw [hc, exc_pure_bind] at heq
      try dsimp only at heq
      have hinv2 : Inv (remove h mn) :=
        ⟨idsOk_remove hinv.1 hmn, heapOrd_sameKP (sameKP_remove h mn) hinv.2⟩
      by_cases hrt : (getN (remove h mn) mn).right = mn
      · rw [if_pos hrt, exc_pure] at heq
        cases heq
        exact ⟨inv_setNum (inv_setMinNone hinv2), by simp [length_remove]⟩
      · rw [if_neg hrt] at heq
        try dsimp only at heq
        have hrlt : (getN (remove h mn) mn).right < (remove h mn).nodes.length := by
          have : mn < (remove h mn).nodes.length := by rwa [length_remove]
          exact (hinv2.1.1 mn this).2.2.2
        have hinv3 : Inv { remove h mn with
            min := some (getN (remove h mn) mn).right } := inv_setMin hinv2 hrlt
        cases hcons : consolidate { remove h mn with
            min := some (getN (remove h mn) mn).right } with
        | error e => rw [hcons, exc_bind_err] at heq; cases heq
        | ok h4 =>
          rw [hcons, exc_bind_ok, exc_pure] at heq
          cases heq
          have hci := consolidate_inv hinv3 hcons
          refine ⟨inv_setNum hci.1, ?_⟩
          have : h4.nodes.length = (remove h mn).nodes.length := hci.2.1
          simpa [length_remove] using this
    | some c =>
      rw [hc] at heq
      try dsimp only at heq
      split at heq
      · rw [exc_bind_err] at heq; cases heq
      next rs hs =>
        rw [exc_pure_bind] at heq
        try dsimp only at heq
        have hcl : c < h.nodes.length := (hinv.1.1 mn hmn).2.1 c hc
        have hrs := siblings_mem hinv.1 hcl hs
        have hp := promo_inv rs _ mn hinv hmn hrs
        have hinv1 : Inv (rs.foldl
            (fun hh r => add (modifyN hh r (fun x => { x with parent := none })) mn r) h) :=
          hp.1
        have hlen1 : (rs.foldl
            (fun hh r => add (modifyN hh r (fun x => { x with parent := none })) mn r)
              h).nodes.length = h.nodes.length := hp.2.1
        set h1 := rs.foldl
          (fun hh r => add (modifyN hh r (fun x => { x with parent := none })) mn r) h
          with hh1
        have hmn1 : mn < h1.nodes.length := by rwa [hlen1]
        have hinv2 : Inv (remove h1 mn) :=
          ⟨idsOk_remove hinv1.1 hmn1, heapOrd_sameKP (sameKP_remove h1 mn) hinv1.2⟩
        by_cases hrt : (getN (remove h1 mn) mn).right = mn
        · rw [if_pos hrt, exc_pure] at heq
          cases heq
          refine ⟨inv_setNum (inv_setMinNone hinv2), ?_⟩
          simp [length_remove, hlen1]
        · rw [if_neg hrt] at heq
          try dsimp only at heq
          have hrlt : (getN (remove h1 mn) mn).right < (remove h1 mn).nodes.length := by
            have : mn < (remove h1 mn).nodes.length := by rwa [length_remove]
            exact (hinv2.1.1 mn this).2.2.2
          have hinv3 : Inv { remove h1 mn with
              min := some (getN (remove h1 mn) mn).right } := inv_setMin hinv2 hrlt
          cases hcons : consolidate { remove h1 mn with
              min := some (getN (remove h1 mn) mn).right } with
          | error e => rw [hcons, exc_bind_err] at heq; cases heq
          | ok h4 =>
            rw [hcons, exc_bind_ok, exc_pure] at heq
            cases heq
            have hci := consolidate_inv hinv3 hcons
            refine ⟨inv_setNum hci.1, ?_⟩
            have : h4.nodes.length = (remove h1 mn).nodes.length := hci.2.1
            simp only [length_remove] at this
            simpa [hlen1] using this

/-! ## Preservation through `cut`, `cascading_cut`, `decrease_key` -/

theorem keyOf_modifyN_key {h : Heap} {nid : Nat} {k : Key} (hn : nid < h.nodes.length) :
    keyOf (modifyN h nid fun x => { x with key := k }) nid = k := by
  rw [keyOf, getN_modifyN_self _ _ hn]

theorem keyOf_modifyN_ne {h : Heap} {nid j : Nat} (f : Node → Node) (hne : nid ≠ j) :
    keyOf (modifyN h nid f) j = keyOf h j := by
  rw [keyOf, getN_modifyN_ne _ _ hne]; rfl

theorem parOf_modifyN_keepPar {h : Heap} (nid : Nat) (f : Node → Node)
    (hf : ∀ n, (f n).parent = n.parent) (j : Nat) :
    parOf (modifyN h nid f) j = parOf h j := by
  by_cases hn : nid < h.nodes.length
  · by_cases hj : nid = j
    · subst hj
      rw [parOf, getN_modifyN_self _ _ hn, hf]; rfl
    · rw [parOf, getN_modifyN_ne _ _ hj]; rfl
  · rw [modifyN_oob _ _ (Nat.le_of_not_lt hn)]

/-- After `decrease_key` writes the smaller key, heap order can only be
broken at the written node itself. -/
theorem heapOrdX_decrease {h : Heap} {nid : Nat} {k : Key} (ho : HeapOrd h)
    (hguard : Key.blt (getN h nid).key k = false) :
    HeapOrdX (modifyN h nid fun x => { x with key := k }) nid := by
  intro i p hp hine
  by_cases hn : nid < h.nodes.length
  · have hpi : parOf h i = some p := by
      rw [parOf_modifyN_keepPar nid (fun x => { x with key := k })
        (fun _ => rfl) i] at hp
      exact hp
    have hki : keyOf (modifyN h nid fun x => { x with key := k }) i = keyOf h i :=
      keyOf_modifyN_ne _ (Ne.symm hine)
    by_cases hpn : p = nid
    · rw [hki, hpn, keyOf_modifyN_key hn]
      exact Key.blt_false_trans (ho i nid (hpn ▸ hpi)) hguard
    · rw [hki, keyOf_modifyN_ne _ (fun hh => hpn hh.symm)]
      exact ho i p hpi
  · rw [modifyN_oob _ _ (Nat.le_of_not_lt hn)] at hp ⊢
    exact ho i p hp

theorem heapOrdX_full {h1 : Heap} {nid : Nat} (hX : HeapOrdX h1 nid)
    (hself : ∀ p, parOf h1 nid = some p →
      Key.blt (keyOf h1 nid) (keyOf h1 p) = false) : HeapOrd h1 := by
  intro i p hp
  by_cases hin : i = nid
  · subst hin; exact hself p hp
  · exact hX i p hp hin

theorem cut_inv {h : Heap} {n p : Nat} {h' : Heap} (hids : IdsOk h)
    (hx : HeapOrdX h n) (hn : n < h.nodes.length) (hp : p < h.nodes.length)
    (heq : cut h n p = .ok h') :
    Inv h' ∧ h'.nodes.length = h.nodes.length ∧ h'.min = h.min ∧
      h'.num_nodes = h.num_nodes := by
  have main : ∀ (g : Heap), IdsOk g → HeapOrdX g n →
      g.nodes.length = h.nodes.length → g.min = h.min → g.num_nodes = h.num_nodes →
      ∀ m, m < g.nodes.length →
      Inv (modifyN (modifyN (add g m n) n (fun x => { x with parent := none })) n
        (fun x => { x with mark := false })) ∧
      (modifyN (modifyN (add g m n) n (fun x => { x with parent := none })) n
        (fun x => { x with mark := false })).nodes.length = h.nodes.length ∧
      (modifyN (modifyN (add g m n) n (fun x => { x with parent := none })) n
        (fun x => { x with mark := false })).min = h.min ∧
      (modifyN (modifyN (add g m n) n (fun x => { x with parent := none })) n
        (fun x => { x with mark := false })).num_nodes = h.num_nodes := by
    intro g hidsg hxg hleng hming hnumg m hm
    have hng : n < g.nodes.length := by rwa [hleng]
    have hidsA : IdsOk (add g m n) := idsOk_add hidsg hm hng
    have hxA : HeapOrdX (add g m n) n := heapOrdX_sameKP (sameKP_add g m n) hxg
    have hordB : HeapOrd (modifyN (add g m n) n (fun x => { x with parent := none })) :=
      heapOrdX_clearParent hxA
    have hidsB : IdsOk (modifyN (add g m n) n (fun x => { x with parent := none })) :=
      idsOk_modifyN n hidsA (fun _ hm' => hm'.setParNone)
    refine ⟨⟨idsOk_modifyN n hidsB (fun _ hm' => hm'), heapOrd_sameKP
      (sameKP_modifyN _ _ _ (fun _ => ⟨rfl, rfl⟩)) hordB⟩, ?_, ?_, ?_⟩
    · simp [length_modifyN, length_add, hleng]
    · simp [min_modifyN, min_add, hming]
    · simp [num_modifyN, num_add, hnumg]
  unfold cut at heq
  try dsimp only at heq
  by_cases hrt : (getN (remove h n) n).right = n
  · rw [if_pos hrt] at heq
    have hidsC : IdsOk (modifyN (modifyN (remove h n) p
        (fun x => { x with child := none })) p (fun x => { x with degree := x.degree - 1 })) := by
      refine idsOk_modifyN p (idsOk_modifyN p (idsOk_remove hids hn)
        (fun _ hm' => hm'.setChildNone)) (fun _ hm' => hm')
    have hxC : HeapOrdX (modifyN (modifyN (remove h n) p
        (fun x => { x with child := none })) p (fun x => { x with degree := x.degree - 1 })) n := by
      refine heapOrdX_sameKP ?_ hx
      exact sameKP_trans (sameKP_trans (sameKP_remove h n)
        (sameKP_modifyN (remove h n) p (fun x => { x with child := none })
          (fun _ => ⟨rfl, rfl⟩)))
        (sameKP_modifyN (modifyN (remove h n) p (fun x => { x with child := none })) p
          (fun x => { x with degree := x.degree - 1 }) (fun _ => ⟨rfl, rfl⟩))
    split at heq
    · cases heq
    next m hms =>
      rw [exc_pure] at heq
      cases heq
      refine main _ hidsC hxC (by simp [length_modifyN, length_remove])
        (by simp [min_modifyN, min_remove]) (by simp [num_modifyN, num_remove]) m ?_
      have hmh : m < h.nodes.length := hids.2 m hms
      simpa [length_modifyN, length_remove] using hmh
  · rw [if_neg hrt] at heq
    have hidsC : IdsOk (modifyN (remove h n) p (fun x => { x with degree := x.degree - 1 })) :=
      idsOk_modifyN p (idsOk_remove hids hn) (fun _ hm' => hm')
    have hxC : HeapOrdX (modifyN (remove h n) p
        (fun x => { x with degree := x.degree - 1 })) n := by
      refine heapOrdX_sameKP ?_ hx
      exact sameKP_trans (sameKP_remove h n) (sameKP_modifyN (remove h n) p
        (fun x => { x with degree := x.degree - 1 }) (fun _ => ⟨rfl, rfl⟩))
    split at heq
    · cases heq
    next m hms =>
      rw [exc_pure] at heq
      cases heq
      refine main _ hidsC hxC (by simp [length_modifyN, length_remove])
        (by simp [min_modifyN, min_remove]) (by simp [num_modifyN, num_remove]) m ?_
      have hmh : m < h.nodes.length := hids.2 m hms
      simpa [length_modifyN, length_remove] using hmh

theorem casc_inv :
    ∀ (fuel : Nat) {h : Heap} {n : Nat} {h' : Heap}, Inv h → n < h.nodes.length →
      cascading_cut h n fuel = .ok h' →
      Inv h' ∧ h'.nodes.length = h.nodes.length ∧ h'.min = h.min ∧
        h'.num_nodes = h.num_nodes := by
  intro fuel
  induction fuel with
  | zero => intro h n h' _ _ heq; cases heq
  | succ fl ih =>
    intro h n h' hinv hn heq
    unfold cascading_cut at heq
    split at heq
    · rw [exc_pure] at heq
      cases heq
      exact ⟨hinv, rfl, rfl, rfl⟩
    next p hpar =>
      by_cases hmk : (getN h n).mark = false
      · rw [if_pos hmk, exc_pure] at heq
        cases heq
        refine ⟨⟨idsOk_modifyN n hinv.1 (fun _ hm' => hm'),
          heapOrd_sameKP (sameKP_modifyN _ _ _ (fun _ => ⟨rfl, rfl⟩)) hinv.2⟩, ?_, rfl, rfl⟩
        simp [length_modifyN]
      · rw [if_neg hmk] at heq
        cases hcut : cut h n p with
        | error e => rw [hcut, exc_bind_err] at heq; cases heq
        | ok h2 =>
          rw [hcut, exc_bind_ok] at heq
          have hp : p < h.nodes.length := (hinv.1.1 n hn).1 p hpar
          have hc2 := cut_inv hinv.1 (hinv.2.toX n) hn hp hcut
          have hih := ih hc2.1 (by rw [hc2.2.1]; exact hp) heq
          refine ⟨hih.1, ?_, ?_, ?_⟩
          · rw [hih.2.1, hc2.2.1]
          · rw [hih.2.2.1, hc2.2.2.1]
          · rw [hih.2.2.2, hc2.2.2.2]

theorem decrease_inv {h : Heap} {nid : Nat} {k : Key} {h' : Heap} (hinv : Inv h)
    (hn : nid < h.nodes.length) (heq : decrease_key h nid k = .ok h') :
    Inv h' ∧ h'.nodes.length = h.nodes.length := by
  unfold decrease_key at heq
  by_cases hguard : Key.blt (getN h nid).key k = true
  · rw [if_pos hguard, exc_pure] at heq
    cases heq
    exact ⟨hinv, rfl⟩
  · rw [if_neg hguard] at heq
    try dsimp only at heq
    have hgf : Key.blt (getN h nid).key k = false :=
      Bool.eq_false_iff.2 fun hb => hguard hb
    have hids1 : IdsOk (modifyN h nid fun x => { x with key := k }) :=
      idsOk_modifyN nid hinv.1 (fun _ hm' => hm')
    have hX1 : HeapOrdX (modifyN h nid fun x => { x with key := k }) nid :=
      heapOrdX_decrease hinv.2 hgf
    have hlen1 : (modifyN h nid fun x => { x with key := k }).nodes.length
        = h.nodes.length := by simp [length_modifyN]
    have hn1 : nid < (modifyN h nid fun x => { x with key := k }).nodes.length := by
      rwa [hlen1]
    have minStep : ∀ (g : Heap), Inv g → g.nodes.length = h.nodes.length →
        (match g.min with
          | none => (Except.error PyErr.attrError : Except PyErr Heap)
          | some m =>
            if Key.blt (getN g nid).key (getN g m).key then pure { g with min := some nid }
            else pure g) = .ok h' →
        Inv h' ∧ h'.nodes.length = h.nodes.length := by
      intro g hg hgl hstep
      split at hstep
      · cases hstep
      next m hms =>
        by_cases hcm : Key.blt (getN g nid).key (getN g m).key = true
        · rw [if_pos hcm, exc_pure] at hstep
          cases hstep
          exact ⟨inv_setMin hg (by rwa [hgl]), hgl⟩
        · rw [if_neg hcm, exc_pure] at hstep
          cases hstep
          exact ⟨hg, hgl⟩
    split at heq
    · -- the node has no parent: no cut
      next hpar =>
        have hord1 : HeapOrd (modifyN h nid fun x => { x with key := k }) := by
          refine heapOrdX_full hX1 (fun p hp => ?_)
          rw [parOf] at hp
          rw [hpar] at hp
          cases hp
        rw [exc_pure_bind] at heq
        exact minStep _ ⟨hids1, hord1⟩ hlen1 heq
    · next p hpar =>
        by_cases hcmp : Key.blt (getN (modifyN h nid fun x => { x with key := k }) nid).key
            (getN (modifyN h nid fun x => { x with key := k }) p).key = true
        · rw [if_pos hcmp] at heq
          have hp1 : p < (modifyN h nid fun x => { x with key := k }).nodes.length :=
            (hids1.1 nid hn1).1 p hpar
          cases hcut : cut (modifyN h nid fun x => { x with key := k }) nid p with
          | error e => rw [hcut, exc_bind_err] at heq; cases heq
          | ok h2 =>
            rw [hcut, exc_bind_ok] at heq
            have hc2 := cut_inv hids1 hX1 hn1 hp1 hcut
            cases hcc : cascading_cut h2 p (h2.nodes.length + 2) with
            | error e => rw [hcc, exc_bind_err] at heq; cases heq
            | ok h3 =>
              rw [hcc, exc_bind_ok] at heq
              have hc3 := casc_inv _ hc2.1 (by rw [hc2.2.1]; exact hp1) hcc
              refine minStep _ hc3.1 ?_ heq
              rw [hc3.2.1, hc2.2.1, hlen1]
        · rw [if_neg hcmp] at heq
          have hord1 : HeapOrd (modifyN h nid fun x => { x with key := k }) := by
            refine heapOrdX_full hX1 (fun p' hp' => ?_)
            have hpp : p' = p := by
              rw [parOf] at hp'
              rw [hpar] at hp'
              exact (Option.some.inj hp').symm
            subst hpp
            exact Bool.eq_false_iff.2 fun hb => hcmp hb
          rw [exc_pure_bind] at heq
          exact minStep _ ⟨hids1, hord1⟩ hlen1 heq

/-! ## Preservation through `insert` and `delete` -/

theorem getN_push_lt {h : Heap} {nd : Node} {j : Nat} (hj : j < h.nodes.length) :
    getN { h with nodes := h.nodes ++ [nd] } j = getN h j := by
  simp [getN, List.getElem?_append_left hj]

theorem getN_push_self {h : Heap} {nd : Node} :
    getN { h with nodes := h.nodes ++ [nd] } h.nodes.length = nd := by
  simp [getN, List.getElem?_concat_length]

theorem inv_push {h : Heap} {nd : Node} (hinv : Inv h) (hpar : nd.parent = none)
    (hch : nd.child = none) (hl : nd.left < h.nodes.length + 1)
    (hr : nd.right < h.nodes.length + 1) :
    Inv { h with nodes := h.nodes ++ [nd] } := by
  have hlen : ({ h with nodes := h.nodes ++ [nd] } : Heap).nodes.length
      = h.nodes.length + 1 := by simp
  constructor
  · constructor
    · intro i hi
      rw [hlen] at hi ⊢
      rcases Nat.lt_succ_iff_lt_or_eq.1 hi with hi' | hi'
      · rw [getN_push_lt hi']
        exact (hinv.1.1 i hi').mono (Nat.le_succ _)
      · subst hi'
        rw [getN_push_self]
        exact ⟨fun p hp => absurd hp (by rw [hpar]; exact fun hh => Option.noConfusion hh),
          fun c hc => absurd hc (by rw [hch]; exact fun hh => Option.noConfusion hh), hl, hr⟩
    · intro m hm
      rw [hlen]
      exact Nat.lt_succ_of_lt (hinv.1.2 m hm)
  · intro i p hp
    by_cases hi : i < h.nodes.length
    · have hpi : parOf h i = some p := by
        rw [parOf, getN_push_lt hi] at hp; exact hp
      have hplt : p < h.nodes.length := (hinv.1.1 i hi).1 p hpi
      rw [keyOf, keyOf, getN_push_lt hi, getN_push_lt hplt]
      exact hinv.2 i p hpi
    · by_cases hieq : i = h.nodes.length
      · subst hieq
        rw [parOf, getN_push_self, hpar] at hp
        cases hp
      · have hig : h.nodes.length + 1 ≤ i := by omega
        rw [parOf, getN_oob _ (by rw [hlen]; exact hig)] at hp
        simp [default] at hp

theorem insert_inv {h : Heap} (k : Key) (hinv : Inv h) : Inv (insert h k).2 := by
  unfold insert
  dsimp only
  have hP : Inv { h with nodes := h.nodes ++
      [{ key := k, parent := none, child := none, left := h.nodes.length,
         right := h.nodes.length, degree := 0, mark := false }] } :=
    inv_push hinv rfl rfl (Nat.lt_succ_self _) (Nat.lt_succ_self _)
  have hlenP : ({ h with nodes := h.nodes ++
      [{ key := k, parent := none, child := none, left := h.nodes.length,
         right := h.nodes.length, degree := 0, mark := false }] } : Heap).nodes.length
      = h.nodes.length + 1 := by simp
  split
  next m hm =>
    have hmP : m < h.nodes.length + 1 := Nat.lt_succ_of_lt (hinv.1.2 m hm)
    have hA : Inv (add { h with nodes := h.nodes ++
        [{ key := k, parent := none, child := none, left := h.nodes.length,
           right := h.nodes.length, degree := 0, mark := false }] } m h.nodes.length) :=
      ⟨idsOk_add hP.1 (by rwa [hlenP]) (by rw [hlenP]; exact Nat.lt_succ_self _),
       heapOrd_sameKP (sameKP_add _ _ _) hP.2⟩
    split
    · exact inv_setNum (inv_setMin hA (by rw [length_add, hlenP]; exact Nat.lt_succ_self _))
    · exact inv_setNum hA
  next hm =>
    exact inv_setNum (inv_setMin hP (by rw [hlenP]; exact Nat.lt_succ_self _))

theorem delete_inv {h : Heap} {nid : Nat} {out : Option Key × Heap} (hinv : Inv h)
    (hn : nid < h.nodes.length) (heq : delete h nid = .ok out) : Inv out.2 := by
  unfold delete at heq
  cases hd : decrease_key h nid Key.ninf with
  | error e => rw [hd, exc_bind_err] at heq; cases heq
  | ok h1 =>
    rw [hd, exc_bind_ok] at heq
    exact (extract_inv (decrease_inv hinv hn hd).1 heq).1

/-! ## States reachable through the public interface -/

theorem inv_empty : Inv emptyHeap := by
  refine ⟨⟨fun i hi => absurd hi (by simp [emptyHeap]), fun m hm => ?_⟩, fun i p hp => ?_⟩
  · simp [emptyHeap] at hm
  · rw [parOf, getN_oob _ (by simp [emptyHeap])] at hp
    simp [default] at hp

theorem reachable_inv {h : Heap} (hr : Reachable h) : Inv h := by
  induction hr with
  | empty => exact inv_empty
  | insert_step k _ ih => exact insert_inv k ih
  | extract_step _ heq ih => exact (extract_inv ih heq).1
  | decrease_step _ hn heq ih => exact (decrease_inv ih hn heq).1
  | delete_step _ hn heq ih => exact delete_inv ih hn heq

/-! ## The claims -/

/-- C1: the spec's sorted-extraction property fails on the code.  Inserting
the keys `{5, 3, 8, 1, 9, 2}` (in the order written) and extracting six
times yields `1, 2, 3, 5, 8, None`: the sixth call reports an empty heap
even though key `9` was never extracted.  The rebuild loop of
`__consolidate` re-splices nodes that are already in the root ring
(`self.min.add(deg_node)` without removing them first), which disconnects
node `9` from the ring during the third extraction. -/
theorem c1_sorted_extraction_fails :
    runExtracts 6 (insertList emptyHeap [5, 3, 8, 1, 9, 2]) =
      .ok [some (Key.kint 1), some (Key.kint 2), some (Key.kint 3),
           some (Key.kint 5), some (Key.kint 8), none] := rfl

/-- C2: min-correctness fails on the code.  After the five completed public
operations of `c2State`'s trace, the key `9` (inserted, never extracted)
is still held by node `4`, a parentless node, and `num_nodes = 1`, yet
`self.min` is `None`: `minimum()` raises `AttributeError` instead of
returning `9`. -/
theorem c2_minimum_lost :
    extractIter 5 (insertList emptyHeap [5, 3, 8, 1, 9, 2]) = .ok c2State ∧
    runExtracts 5 (insertList emptyHeap [5, 3, 8, 1, 9, 2]) =
      .ok [some (Key.kint 1), some (Key.kint 2), some (Key.kint 3),
           some (Key.kint 5), some (Key.kint 8)] ∧
    c2State.num_nodes = 1 ∧ (getN c2State 4).key = Key.kint 9 ∧
    (getN c2State 4).parent = none ∧ c2State.min = none ∧
    minimum c2State = .error .attrError :=
  ⟨rfl, rfl, rfl, rfl, rfl, rfl, rfl⟩

/-- C3: heap order along parent links holds after every public operation:
for every state reachable through completed `insert` / `extract_minimum` /
`decrease_key` / `delete` calls, every node with a parent has a key `≥`
its parent's key (`Key.blt child parent = false` says `child ≥ parent`). -/
theorem c3_heap_order (h : Heap) (hr : Reachable h) : HeapOrd h :=
  (reachable_inv hr).2

/-- Witness for C3 at a concrete reachable heap. -/
theorem c3_heap_order_witness : HeapOrd (insert emptyHeap (Key.kint 5)).2 :=
  c3_heap_order _ (Reachable.insert_step (Key.kint 5) Reachable.empty)

/-- C4: consolidation can index past the end of the degree table.  In
`c4Pre` — reached by nine inserts, two extractions and two legal
decrease-key calls — seven nodes remain (`num_nodes = 7`, so the table has
`int(log(7) * 2) = 3` slots) while node `1` is a root of degree `3`;
the next `extract_minimum` call probes `deg_list[3]` and raises
`IndexError`. -/
theorem c4_consolidation_index_error :
    (c46Prefix >>= fun h => decrease_key h 8 (Key.kint 3)) = .ok c4Pre ∧
    c4Pre.num_nodes = 7 ∧ tableSize c4Pre.num_nodes = .ok 3 ∧
    (getN c4Pre 1).degree = 3 ∧ (getN c4Pre 1).parent = none ∧
    extract_minimum c4Pre = .error .indexError :=
  ⟨rfl, rfl, rfl, rfl, rfl, rfl⟩

/-- C5: `insert` performs the state changes the claim lists (new singleton
node, min update, `num_nodes + 1`, no failure) but it does **not** return
a handle: the Python method has no `return` statement (annotated
`-> None`), so the caller receives `None` and can never obtain the node
reference that `decrease_key` / `delete` require. -/
theorem c5_insert_returns_none :
    (insert emptyHeap (Key.kint 5)).1 = none ∧
    (insert emptyHeap (Key.kint 5)).2.num_nodes = 1 ∧
    (insert emptyHeap (Key.kint 5)).2.min = some 0 ∧
    (getN (insert emptyHeap (Key.kint 5)).2 0).key = Key.kint 5 :=
  ⟨rfl, rfl, rfl, rfl⟩

/-- C6 counterexample: after the completed `extract_minimum` of `c6Run`
(which returns key `10`), node `3` is the heap's `min` — a root, its
`parent` is `None` — and still has `mark = True`: `extract_minimum`
promotes the children of the extracted minimum without clearing their
marks. -/
theorem c6_promoted_mark_retained :
    c6Run = .ok (some (Key.kint 10), c6State) ∧
    c6State.min = some 3 ∧ (getN c6State 3).parent = none ∧
    (getN c6State 3).mark = true :=
  ⟨rfl, rfl, rfl, rfl⟩

/-- C6 as amended: the roots produced by `__cut` are unmarked — whenever
`cut` completes, the cut node has `mark = False` and no parent — but roots
promoted by `extract_minimum` keep their previous mark bit. -/
theorem c6_cut_promotes_unmarked (h : Heap) (n p : Nat) (h' : Heap)
    (heq : cut h n p = .ok h') :
    (getN h' n).mark = false ∧ (getN h' n).parent = none := by
  have final : ∀ (g : Heap),
      (getN (modifyN (modifyN g n (fun x => { x with parent := none })) n
        (fun x => { x with mark := false })) n).mark = false ∧
      (getN (modifyN (modifyN g n (fun x => { x with parent := none })) n
        (fun x => { x with mark := false })) n).parent = none := by
    intro g
    by_cases hn : n < g.nodes.length
    · rw [getN_modifyN_self _ _ (by rwa [length_modifyN]), getN_modifyN_self _ _ hn]
      exact ⟨rfl, rfl⟩
    · have hle : g.nodes.length ≤ n := Nat.le_of_not_lt hn
      rw [modifyN_oob _ _ (by rwa [length_modifyN]), modifyN_oob _ _ hle,
        getN_oob _ hle]
      exact ⟨rfl, rfl⟩
  unfold cut at heq
  try dsimp only at heq
  by_cases hrt : (getN (remove h n) n).right = n
  · rw [if_pos hrt] at heq
    split at heq
    · cases heq
    · rw [exc_pure] at heq
      cases heq
      exact final _
  · rw [if_neg hrt] at heq
    split at heq
    · cases heq
    · rw [exc_pure] at heq
      cases heq
      exact final _

/-- Witness for the amended C6 at a concrete `cut` call. -/
theorem c6_cut_promotes_unmarked_witness :
    (getN ((cut c6CutDemo 1 0).toOption.getD emptyHeap) 1).mark = false ∧
    (getN ((cut c6CutDemo 1 0).toOption.getD emptyHeap) 1).parent = none :=
  c6_cut_promotes_unmarked c6CutDemo 1 0 _ rfl

/-- C7: `extract_minimum` on an empty heap returns `None` (the code's way
of reporting emptiness) and leaves the heap — in particular `size()` —
unchanged, over arbitrarily many repeated calls. -/
theorem c7_empty_extract_idempotent (h : Heap) (n : Nat) (hmin : h.min = none)
    (hsz : size h = 0) :
    extract_minimum h = .ok (none, h) ∧ extractIter n h = .ok h ∧
      size ((extractIter n h).toOption.getD h) = 0 := by
  have h1 : extract_minimum h = .ok (none, h) := by
    unfold extract_minimum
    rw [hmin]
  have h2 : ∀ m : Nat, extractIter m h = .ok h := by
    intro m
    induction m with
    | zero => rfl
    | succ m ih =>
      unfold extractIter
      rw [h1, exc_bind_ok]
      exact ih
  refine ⟨h1, h2 n, ?_⟩
  rw [h2 n]
  exact hsz

/-- Witness for C7 on the empty heap with three repeated calls. -/
theorem c7_empty_extract_idempotent_witness :
    extract_minimum emptyHeap = .ok (none, emptyHeap) ∧
    extractIter 3 emptyHeap = .ok emptyHeap ∧
    size ((extractIter 3 emptyHeap).toOption.getD emptyHeap) = 0 :=
  c7_empty_extract_idempotent emptyHeap 3 rfl rfl

/-- C8: a `decrease_key` call whose new key is strictly larger than the
node's current key returns immediately and changes nothing. -/
theorem c8_decrease_larger_noop (h : Heap) (nid : Nat) (k : Key)
    (hgt : Key.blt (getN h nid).key k = true) : decrease_key h nid k = .ok h := by
  unfold decrease_key
  rw [if_pos hgt]
  rfl

/-- Witness for C8: raising the sole key `4` to `7` is a no-op. -/
theorem c8_decrease_larger_noop_witness :
    decrease_key (insert emptyHeap (Key.kint 4)).2 0 (Key.kint 7) =
      .ok (insert emptyHeap (Key.kint 4)).2 :=
  c8_decrease_larger_noop _ 0 _ (by decide)

/-- C9: with duplicates `{4, 4, 4}` inserted, deleting one handle leaves
`size() = 2` and the two remaining extractions both return `4`. -/
theorem c9_delete_duplicate :
    c9Run = .ok (2, [some (Key.kint 4), some (Key.kint 4)]) := rfl

/-- C10: `decrease_key` on a root (no parent) with a key `≤` the current
key only rewrites that node's `key` field (the arena is the old arena with
exactly that one field changed) and possibly redirects `min` to the node;
`num_nodes` and every other node are untouched, and no cut happens. -/
theorem c10_decrease_frame (h : Heap) (nid m : Nat) (k : Key)
    (hn : nid < h.nodes.length) (hpar : (getN h nid).parent = none)
    (hle : Key.blt (getN h nid).key k = false) (hm : h.min = some m) :
    ∃ h', decrease_key h nid k = .ok h' ∧
      h'.nodes = h.nodes.set nid { getN h nid with key := k } ∧
      h'.num_nodes = h.num_nodes ∧
      (∀ j, j ≠ nid → getN h' j = getN h j) ∧
      getN h' nid = { getN h nid with key := k } ∧
      (h'.min = h.min ∨ h'.min = some nid) := by
  have hparm : (getN (modifyN h nid fun x => { x with key := k }) nid).parent = none := by
    rw [getN_modifyN_self _ _ hn]
    exact hpar
  have hmin1 : (modifyN h nid fun x => { x with key := k }).min = some m := by
    rw [min_modifyN]
    exact hm
  have hrun : ∀ (w : Heap),
      ((if Key.blt (getN (modifyN h nid fun x => { x with key := k }) nid).key
          (getN (modifyN h nid fun x => { x with key := k }) m).key = true then
        { (modifyN h nid fun x => { x with key := k }) with min := some nid }
      else (modifyN h nid fun x => { x with key := k })) = w) →
      decrease_key h nid k = .ok w := by
    intro w hw
    unfold decrease_key
    rw [if_neg (by rw [hle]; exact Bool.false_ne_true)]
    try dsimp only
    split
    next hnone =>
      rw [exc_pure_bind]
      split
      next hq => rw [hmin1] at hq; cases hq
      next m' hq =>
        have hmm : m' = m := by
          rw [hmin1] at hq
          exact (Option.some.inj hq).symm
        rw [hmm]
        by_cases hfin : Key.blt (getN (modifyN h nid fun x => { x with key := k }) nid).key
            (getN (modifyN h nid fun x => { x with key := k }) m).key = true
        · rw [if_pos hfin, exc_pure]
          rw [if_pos hfin] at hw
          rw [hw]
        · rw [if_neg hfin, exc_pure]
          rw [if_neg hfin] at hw
          rw [hw]
    next p hq => rw [hparm] at hq; cases hq
  by_cases hfin : Key.blt (getN (modifyN h nid fun x => { x with key := k }) nid).key
      (getN (modifyN h nid fun x => { x with key := k }) m).key = true
  · refine ⟨{ (modifyN h nid fun x => { x with key := k }) with min := some nid },
      hrun _ (by rw [if_pos hfin]), rfl, rfl, ?_, ?_, Or.inr rfl⟩
    · intro j hj
      exact getN_modifyN_ne h (fun x => { x with key := k }) (fun hh => hj hh.symm)
    · exact getN_modifyN_self h (fun x => { x with key := k }) hn
  · refine ⟨modifyN h nid fun x => { x with key := k },
      hrun _ (by rw [if_neg hfin]), rfl, rfl, ?_, ?_, Or.inl rfl⟩
    · intro j hj
      exact getN_modifyN_ne h (fun x => { x with key := k }) (fun hh => hj hh.symm)
    · exact getN_modifyN_self h (fun x => { x with key := k }) hn

/-- Witness for C10: lowering the root key `7` (node `1`) to `6` in a
two-element heap. -/
theorem c10_decrease_frame_witness :
    ∃ h', decrease_key (insertList emptyHeap [5, 7]) 1 (Key.kint 6) = .ok h' ∧
      h'.nodes = (insertList emptyHeap [5, 7]).nodes.set 1
        { getN (insertList emptyHeap [5, 7]) 1 with key := Key.kint 6 } ∧
      h'.num_nodes = (insertList emptyHeap [5, 7]).num_nodes ∧
      (∀ j, j ≠ 1 → getN h' j = getN (insertList emptyHeap [5, 7]) j) ∧
      getN h' 1 = { getN (insertList emptyHeap [5, 7]) 1 with key := Key.kint 6 } ∧
      (h'.min = (insertList emptyHeap [5, 7]).min ∨ h'.min = some 1) :=
  c10_decrease_frame _ 1 0 _ (by decide) (by decide) (by decide) (by decide)

end FibHeap
